import Mathlib

/-!
# go7: a hash-chained sequence of blocks carrying sample statistics

A shallow embedding of `src/main.go` and the properties of its hasher, block
factory, validator, statistics engine and chain driver.

Modelling conventions.

* The functions of the program are written over the `float64` operations they
  use and are read at two kinds of sample type: a linearly ordered field `α`,
  which is exact arithmetic, and `F64`, the rational numbers with NaN, on which
  the comparisons are false of NaN as they are in Go.  Infinities, signed zeros
  and rounding are outside the model.  The two library operations on `float64`
  that arithmetic does not determine, `math.Sqrt` and the `%v` rendering of one
  value, are the fields of `Float64Ops`; the general theorems hold for all
  choices of them, those on the size of `sdRange` for every exact square root
  (`ExactSqrt`).
* Go `int` is a 64-bit two's-complement integer: values are integers and
  addition wraps (`addInt`).
* Go `string` is `String`; the bytes handed to SHA-256 are its UTF-8 encoding.
* A run-time panic is an `Except.error`.
* `time.Now()` and `rand.Float64()` are inputs of the functions that call them.
* A slice argument that the callee mutates is returned alongside the result
  (`median` returns the value and the reordered slice).
-/

namespace Go7

/-! ## SHA-256 (`crypto/sha256`) and hexadecimal encoding (`encoding/hex`) -/

namespace SHA256

/-- Round constants of SHA-256: the first 32 bits of the fractional parts of the
cube roots of the first 64 primes. -/
def K : List Nat :=
  [1116352408, 1899447441, 3049323471, 3921009573, 961987163, 1508970993,
   2453635748, 2870763221, 3624381080, 310598401, 607225278, 1426881987,
   1925078388, 2162078206, 2614888103, 3248222580, 3835390401, 4022224774,
   264347078, 604807628, 770255983, 1249150122, 1555081692, 1996064986,
   2554220882, 2821834349, 2952996808, 3210313671, 3336571891, 3584528711,
   113926993, 338241895, 666307205, 773529912, 1294757372, 1396182291,
   1695183700, 1986661051, 2177026350, 2456956037, 2730485921, 2820302411,
   3259730800, 3345764771, 3516065817, 3600352804, 4094571909, 275423344,
   430227734, 506948616, 659060556, 883997877, 958139571, 1322822218,
   1537002063, 1747873779, 1955562222, 2024104815, 2227730452, 2361852424,
   2428436474, 2756734187, 3204031479, 3329325298]

/-- Rotate a 32-bit word right by `n` bits. -/
def rotr (x n : Nat) : Nat := ((x >>> n) ||| (x <<< (32 - n))) % 4294967296

/-- Addition of 32-bit words. -/
def add32 (a b : Nat) : Nat := (a + b) % 4294967296

/-- Bitwise complement of a 32-bit word. -/
def not32 (a : Nat) : Nat := 4294967295 - a

/-- Message schedule: extends the sixteen words of a block, kept most recent
first, by `n` further words. -/
def schedule : Nat → List Nat → List Nat
  | 0, w => w
  | n + 1, w =>
    let w2 := w.getD 1 0
    let w7 := w.getD 6 0
    let w15 := w.getD 14 0
    let w16 := w.getD 15 0
    let s0 := rotr w15 7 ^^^ rotr w15 18 ^^^ (w15 >>> 3)
    let s1 := rotr w2 17 ^^^ rotr w2 19 ^^^ (w2 >>> 10)
    schedule n (add32 (add32 (add32 s1 w7) s0) w16 :: w)

/-- The eight working variables (and the chaining value) of SHA-256. -/
structure State where
  a : Nat
  b : Nat
  c : Nat
  d : Nat
  e : Nat
  f : Nat
  g : Nat
  h : Nat

/-- One round of the compression function. -/
def round (s : State) (k w : Nat) : State :=
  let S1 := rotr s.e 6 ^^^ rotr s.e 11 ^^^ rotr s.e 25
  let ch := (s.e &&& s.f) ^^^ (not32 s.e &&& s.g)
  let t1 := add32 (add32 (add32 (add32 s.h S1) ch) k) w
  let S0 := rotr s.a 2 ^^^ rotr s.a 13 ^^^ rotr s.a 22
  let maj := (s.a &&& s.b) ^^^ (s.a &&& s.c) ^^^ (s.b &&& s.c)
  let t2 := add32 S0 maj
  ⟨add32 t1 t2, s.a, s.b, s.c, add32 s.d t1, s.e, s.f, s.g⟩

/-- The rounds of one block, one per pair of round constant and schedule word. -/
def rounds : State → List Nat → List Nat → State
  | s, k :: ks, w :: ws => rounds (round s k w) ks ws
  | s, _, _ => s

/-- Compression of one 16-word block into the chaining value. -/
def compress (h : State) (block : List Nat) : State :=
  let w := (schedule 48 block.reverse).reverse
  let s := rounds h K w
  ⟨add32 h.a s.a, add32 h.b s.b, add32 h.c s.c, add32 h.d s.d,
   add32 h.e s.e, add32 h.f s.f, add32 h.g s.g, add32 h.h s.h⟩

/-- Big-endian 32-bit words of a byte sequence. -/
def words : List Nat → List Nat
  | b0 :: b1 :: b2 :: b3 :: rest =>
    (b0 * 16777216 + b1 * 65536 + b2 * 256 + b3) :: words rest
  | _ => []

/-- Big-endian bytes of a 64-bit length. -/
def be64 (n : Nat) : List Nat :=
  [n / 72057594037927936 % 256, n / 281474976710656 % 256, n / 1099511627776 % 256,
   n / 4294967296 % 256, n / 16777216 % 256, n / 65536 % 256, n / 256 % 256, n % 256]

/-- Padding: a one bit, zeros up to 56 modulo 64 bytes, then the bit length. -/
def pad (msg : List Nat) : List Nat :=
  msg ++ 128 :: List.replicate ((119 - msg.length % 64) % 64) 0 ++ be64 (8 * msg.length)

/-- Compression of `n` consecutive blocks. -/
def blocks : Nat → State → List Nat → State
  | 0, h, _ => h
  | n + 1, h, ws => blocks n (compress h (ws.take 16)) (ws.drop 16)

/-- The eight words of the SHA-256 digest of a byte sequence; the initial
chaining value is the first 32 bits of the fractional parts of the square roots
of the first eight primes. -/
def digestWords (msg : List Nat) : List Nat :=
  let ws := words (pad msg)
  let s := blocks (ws.length / 16)
    ⟨1779033703, 3144134277, 1013904242, 2773480762,
     1359893119, 2600822924, 528734635, 1541459225⟩ ws
  [s.a, s.b, s.c, s.d, s.e, s.f, s.g, s.h]

/-- One lower-case hexadecimal digit. -/
def hexDigit (n : Nat) : Char := "0123456789abcdef".toList.getD n '0'

/-- The eight hexadecimal digits of a 32-bit word. -/
def hexWord (w : Nat) : List Char :=
  [hexDigit (w / 268435456 % 16), hexDigit (w / 16777216 % 16), hexDigit (w / 1048576 % 16),
   hexDigit (w / 65536 % 16), hexDigit (w / 4096 % 16), hexDigit (w / 256 % 16),
   hexDigit (w / 16 % 16), hexDigit (w % 16)]

/-- The digest as `hex.EncodeToString` renders it: 64 hexadecimal digits. -/
def hexDigest (msg : List Nat) : String :=
  String.mk ((digestWords msg).flatMap hexWord)

end SHA256

/-! ## Strings, integers and time as the Go runtime provides them -/

/-- UTF-8 encoding of one character. -/
def utf8Char (c : Char) : List Nat :=
  let n := c.toNat
  if n < 128 then [n]
  else if n < 2048 then [192 + n / 64, 128 + n % 64]
  else if n < 65536 then [224 + n / 4096, 128 + n / 64 % 64, 128 + n % 64]
  else [240 + n / 262144, 128 + n / 4096 % 64, 128 + n / 64 % 64, 128 + n % 64]

/-- The conversion `[]byte(s)`. -/
def toBytes (s : String) : List Nat := s.toList.flatMap utf8Char

/-- Addition of Go `int` values: 64-bit two's complement, wrapping. -/
def addInt (a b : Int) : Int :=
  (a + b + 9223372036854775808) % 18446744073709551616 - 9223372036854775808

/-- The conversion `string(i)` of an `int`: the UTF-8 text of the code point
`i`, and of U+FFFD when `i` is not a valid code point (negative, a surrogate,
or above U+10FFFF). -/
def intToString (i : Int) : String :=
  if 0 ≤ i ∧ i ≤ 0x10FFFF ∧ ¬ (0xD800 ≤ i ∧ i ≤ 0xDFFF) then
    String.singleton (Char.ofNat i.toNat)
  else
    String.singleton (Char.ofNat 0xFFFD)

/-- A `time.Time` value, known through the text `String()` renders it as. -/
structure Time where
  text : String
  deriving DecidableEq, Repr

/-- The method `Time.String`. -/
def Time.String (t : Time) : String := t.text

/-- The operations on `float64` taken from the Go library. -/
structure Float64Ops (α : Type) where
  /-- The function `math.Sqrt`. -/
  sqrt : α → α
  /-- The text of one `float64` under the verb `%v`. -/
  format : α → String

/-- A run-time panic. -/
inductive Panic where
  | indexOutOfRange
  deriving DecidableEq, Repr

/-! ## The program

The functions of the program are written over the operations on `float64` that
they use: the constants `0`, `1` and `2`, the conversion `float64(n)`, the
arithmetic `+`, `-`, `*`, `/`, and the comparisons `<` and `!=`.  They are read
at two kinds of sample type: an ordered field, which is exact arithmetic, and
`F64` below, which adds NaN to the rational numbers. -/

/-- The type `Block`. -/
structure Block (α : Type) where
  Index : Int
  Timestamp : Time
  Data : List α
  PrevHash : String
  Hash : String
  Mean : α
  Median : α
  SDRange : α
  deriving DecidableEq, Repr

/-- The type `Blockchain`. -/
abbrev Blockchain (α : Type) := List (Block α)

set_option linter.unusedSectionVars false

section Program

variable {α : Type} [Zero α] [One α] [OfNat α 2] [NatCast α] [Add α] [Sub α] [Mul α] [Div α]
  [LT α] [∀ a b : α, Decidable (a < b)] [BEq α]

/-- The text `fmt.Sprintf("%v", data)` of a `[]float64`: the elements separated
by one space, in square brackets. -/
def formatData (ops : Float64Ops α) (data : List α) : String :=
  "[" ++ " ".intercalate (data.map ops.format) ++ "]"

/-- The string `record` that `calculateHash` hashes. -/
def record (ops : Float64Ops α) (block : Block α) : String :=
  intToString block.Index ++ block.Timestamp.String ++ formatData ops block.Data ++ block.PrevHash

/-- The function `calculateHash`. -/
def calculateHash (ops : Float64Ops α) (block : Block α) : String :=
  SHA256.hexDigest (toBytes (record ops block))

/-- The function `mean`.  On empty data Go divides `0.0` by zero and returns
NaN, as the division of `F64` does; the value the division of an ordered field
gives there stands for nothing. -/
def mean (data : List α) : α :=
  data.foldl (fun sum value => sum + value) 0 / (data.length : α)

/-- The test `isNaN` of package `sort`: `f != f`. -/
def isNaN (f : α) : Bool := f != f

/-- The method `Float64Slice.Less`, the order `sort.Float64s` sorts by: `x < y`,
or `x` is NaN and `y` is not. -/
def less (x y : α) : Bool := decide (x < y) || (isNaN x && !isNaN y)

/-- The function `sort.Float64s`: the arrangement of the slice in which no
element is `less` than one before it, which is the ascending one with the NaN
elements first. -/
def sortFloat64s (data : List α) : List α :=
  data.insertionSort (fun a b => less b a = false)

/-- The index expression `data[i]` with its bounds check. -/
def index (data : List α) (i : Int) : Except Panic α :=
  if i < 0 then .error .indexOutOfRange
  else
    match data[i.toNat]? with
    | some v => .ok v
    | none => .error .indexOutOfRange

/-- The function `median`.  It sorts its argument in place, so the result is
the returned value together with the slice as the call leaves it. -/
def median (data : List α) : Except Panic (α × List α) :=
  let data := sortFloat64s data
  if data.length % 2 = 0 then
    let middle : Int := ((data.length / 2 : Nat) : Int)
    match index data (middle - 1) with
    | .error e => .error e
    | .ok lo =>
      match index data middle with
      | .error e => .error e
      | .ok hi => .ok ((lo + hi) / 2, data)
  else
    match index data ((data.length / 2 : Nat) : Int) with
    | .error e => .error e
    | .ok v => .ok (v, data)

/-- The function `sdRange`. -/
def sdRange (ops : Float64Ops α) (data : List α) : α :=
  let mean := mean data
  let sumSquaredDiff :=
    data.foldl (fun acc value => acc + (value - mean) * (value - mean)) 0
  let variance := sumSquaredDiff / (data.length : α)
  let standardDeviation := ops.sqrt variance
  2 * standardDeviation

/-- The method `Block.calculateStatistics`.  The call to `median` leaves
`block.Data` sorted, and `sdRange` reads it in that state. -/
def calculateStatistics (ops : Float64Ops α) (block : Block α) : Except Panic (Block α) :=
  let block : Block α := { block with Mean := mean block.Data }
  match median block.Data with
  | .error e => .error e
  | .ok (m, data) =>
    let block : Block α := { block with Median := m, Data := data }
    .ok { block with SDRange := sdRange ops block.Data }

/-- The function `generateBlock`; `now` is the value of `time.Now()`. -/
def generateBlock (ops : Float64Ops α) (prevBlock : Block α) (now : Time) (data : List α) :
    Except Panic (Block α) :=
  let index : Int := if prevBlock.Index = -1 then 0 else addInt prevBlock.Index 1
  let newBlock : Block α :=
    { Index := index, Timestamp := now, Data := data, PrevHash := prevBlock.Hash,
      Hash := "", Mean := 0, Median := 0, SDRange := 0 }
  let newBlock := { newBlock with Hash := calculateHash ops newBlock }
  calculateStatistics ops newBlock

/-- The range loop of `isValidBlock`: false at the first value that is below `0`
or above `1`.  Both comparisons are false of NaN. -/
def rangeCheck : List α → Bool
  | [] => true
  | value :: rest => if value < 0 ∨ value > 1 then false else rangeCheck rest

/-- The function `isValidBlock`. -/
def isValidBlock (ops : Float64Ops α) (block : Block α) : Bool :=
  if rangeCheck block.Data = false then false
  else
    let calculatedHash := calculateHash ops block
    if calculatedHash ≠ block.Hash then false else true

/-- The genesis block of `main`; `now` is the value of `time.Now()`. -/
def genesis (ops : Float64Ops α) (now : Time) : Block α :=
  let genesisBlock : Block α :=
    { Index := -1, Timestamp := now, Data := [], PrevHash := "",
      Hash := "", Mean := 0, Median := 0, SDRange := 0 }
  { genesisBlock with Hash := calculateHash ops genesisBlock }

/-- The body of the growth loop of `main`: one candidate built on the last
block of the chain, appended when valid and dropped otherwise. -/
def growthStep (ops : Float64Ops α) (blockchain : Blockchain α) (now : Time) (data : List α) :
    Except Panic (Blockchain α) :=
  match blockchain.getLast? with
  | none => .error .indexOutOfRange
  | some tail =>
    match generateBlock ops tail now data with
    | .error e => .error e
    | .ok newBlock =>
      if isValidBlock ops newBlock then .ok (blockchain ++ [newBlock]) else .ok blockchain

/-- The growth loop of `main`, one iteration per pair of clock reading and payload. -/
def growthLoop (ops : Float64Ops α) :
    Blockchain α → List (Time × List α) → Except Panic (Blockchain α)
  | blockchain, [] => .ok blockchain
  | blockchain, (now, data) :: rest =>
    match growthStep ops blockchain now data with
    | .error e => .error e
    | .ok next => growthLoop ops next rest

/-- The payload of iteration `i`: ten draws of `rand.Float64()`. -/
def payload (rand : Nat → Nat → α) (i : Nat) : List α :=
  (List.range 10).map (rand i)

/-- The function `main` up to its report: the chain after the genesis block
and ten growth iterations.  `start` and `clock i` are the readings of
`time.Now()` for the genesis block and for iteration `i`, and `rand i j` is
draw `j` of iteration `i`. -/
def main (ops : Float64Ops α) (start : Time) (clock : Nat → Time) (rand : Nat → Nat → α) :
    Except Panic (Blockchain α) :=
  growthLoop ops [genesis ops start] ((List.range 10).map fun i => (clock i, payload rand i))

end Program

variable {α : Type} [LinearOrderedField α]

/-! ## Properties of chains -/

/-- Every block after the first names the hash of the block before it. -/
def Linked (blockchain : Blockchain α) : Prop :=
  ∀ (i : Nat) (h : i + 1 < blockchain.length), blockchain[i + 1].PrevHash = blockchain[i].Hash

/-- The block at position `i` has index `i - 1`. -/
def Indexed (blockchain : Blockchain α) : Prop :=
  ∀ (i : Nat) (h : i < blockchain.length), blockchain[i].Index = (i : Int) - 1

/-- The square root of exact arithmetic: for a non-negative argument, the
non-negative number whose square is the argument. -/
def ExactSqrt (ops : Float64Ops α) : Prop :=
  ∀ x : α, 0 ≤ x → 0 ≤ ops.sqrt x ∧ ops.sqrt x * ops.sqrt x = x

/-- Operations with a given square root, for samples that are never printed. -/
def opsWith (sqrt : α → α) : Float64Ops α where
  sqrt := sqrt
  format := fun _ => ""

/-! ## Concrete runs over the rationals

The samples of the runs below are `0`, `1/4`, `1/2`, `3/4` and `2`, which are
`float64` values; `%v` prints them as `0`, `0.25`, `0.5`, `0.75` and `2`. -/

deriving instance DecidableEq for Except

/-- Decimal digits of `r / d` for `r < d`, at most `fuel` of them, ending where
the expansion ends. -/
def fractionDigits (d : Nat) : Nat → Nat → List Char
  | 0, _ => []
  | fuel + 1, r =>
    if r = 0 then [] else Nat.digitChar (10 * r / d) :: fractionDigits d fuel (10 * r % d)

/-- Plain decimal text of a rational with a short terminating expansion, which
is what `%v` prints for a `float64` of that value between `0.0001` and `100000`. -/
def formatDecimal (q : ℚ) : String :=
  let n := q.num.natAbs
  let sign := if q < 0 then "-" else ""
  let whole := Nat.repr (n / q.den)
  let digits := fractionDigits q.den 17 (n % q.den)
  if digits = [] then sign ++ whole else sign ++ whole ++ "." ++ String.mk digits

/-- Operations for rational samples: the square root is exact on squares of
rationals, the text is the decimal expansion. -/
def ratOps : Float64Ops ℚ where
  sqrt := Rat.sqrt
  format := formatDecimal

/-- A clock reading for the genesis block. -/
def startTime : Time := ⟨"2024-01-01 12:00:00.000001 +0000 UTC m=+0.000010001"⟩

/-- A clock reading for growth iteration `i`. -/
def tick (i : Nat) : Time :=
  ⟨"2024-01-01 12:00:00.00010" ++ Nat.repr i ++ " +0000 UTC m=+0.00011000" ++ Nat.repr i⟩

/-- Draws whose payloads are not in ascending order: `0.5` first, then `0.25`. -/
def unsortedDraw (_ : Nat) (j : Nat) : ℚ := if j = 0 then 1 / 2 else 1 / 4

/-- Three growth iterations: an ascending payload, a descending one, an
ascending one. -/
def scenarioInputs : List (Time × List ℚ) :=
  [(tick 0, [0, 1 / 2]), (tick 1, [1 / 2, 1 / 4]), (tick 2, [1 / 4, 3 / 4])]

/-- The chain that the three iterations of `scenarioInputs` build on the
genesis block of `startTime`: the second candidate is dropped. -/
def scenarioChain : Blockchain ℚ :=
  [{ Index := -1, Timestamp := startTime, Data := [], PrevHash := "",
     Hash := "876dc54aa7e1bcb8dc3dbee98012ac0b33fac89251a1c2d02d48ea3d0f3ea159",
     Mean := 0, Median := 0, SDRange := 0 },
   { Index := 0, Timestamp := tick 0, Data := [0, 1 / 2],
     PrevHash := "876dc54aa7e1bcb8dc3dbee98012ac0b33fac89251a1c2d02d48ea3d0f3ea159",
     Hash := "f810beec05ec6f1a90707e042b16f4ed825eee2fe3c189993a09a0c51ee18114",
     Mean := 1 / 4, Median := 1 / 4, SDRange := 1 / 2 },
   { Index := 1, Timestamp := tick 2, Data := [1 / 4, 3 / 4],
     PrevHash := "f810beec05ec6f1a90707e042b16f4ed825eee2fe3c189993a09a0c51ee18114",
     Hash := "ebfc48a7c44186aa2afbc8942b9d568c237a651574262286561b6c3f164fa417",
     Mean := 1 / 2, Median := 1 / 2, SDRange := 1 / 2 }]

/-- The block `generateBlock` returns for the payload `[0.5, 0.25]` on the
genesis block of `startTime`. -/
def staleBlock : Block ℚ :=
  { Index := 0, Timestamp := tick 0, Data := [1 / 4, 1 / 2],
    PrevHash := "876dc54aa7e1bcb8dc3dbee98012ac0b33fac89251a1c2d02d48ea3d0f3ea159",
    Hash := "66712722455110fae867cf4d9ca2154c43b0e1cd95556200d2ada198b77440a3",
    Mean := 3 / 8, Median := 3 / 8, SDRange := 1 / 4 }

/-! ## Samples with NaN -/

/-- A `float64` value as exact arithmetic with NaN sees it: a rational number
or NaN.  Infinities, signed zeros and rounding are left out. -/
inductive F64 where
  | num (q : ℚ)
  | nan
  deriving DecidableEq, Repr

namespace F64

/-- An arithmetic operation on `float64`: NaN as soon as one operand is NaN. -/
def lift (f : ℚ → ℚ → ℚ) : F64 → F64 → F64
  | num a, num b => num (f a b)
  | _, _ => nan

/-- Division on `float64`: `0 / 0` is NaN.  A non-zero number over zero, an
infinity in Go, does not occur in the program, which divides by a count (zero
only on empty data, where the dividend is zero) and by `2`; it is given as NaN. -/
def div : F64 → F64 → F64
  | num a, num b => if b = 0 then nan else num (a / b)
  | _, _ => nan

/-- The comparison `<` on `float64`: false as soon as one operand is NaN. -/
def lt : F64 → F64 → Bool
  | num a, num b => decide (a < b)
  | _, _ => false

/-- The comparison `<=` on `float64`: false as soon as one operand is NaN. -/
def le : F64 → F64 → Bool
  | num a, num b => decide (a ≤ b)
  | _, _ => false

/-- The comparison `==` on `float64`: false as soon as one operand is NaN. -/
def eq : F64 → F64 → Bool
  | num a, num b => decide (a = b)
  | _, _ => false

instance : Zero F64 := ⟨num 0⟩

instance : One F64 := ⟨num 1⟩

instance : OfNat F64 2 := ⟨num 2⟩

instance : NatCast F64 := ⟨fun n => num n⟩

instance : Add F64 := ⟨lift (· + ·)⟩

instance : Sub F64 := ⟨lift (· - ·)⟩

instance : Mul F64 := ⟨lift (· * ·)⟩

instance : Div F64 := ⟨div⟩

instance : LT F64 := ⟨fun a b => lt a b = true⟩

instance : LE F64 := ⟨fun a b => le a b = true⟩

instance (a b : F64) : Decidable (a < b) := inferInstanceAs (Decidable (lt a b = true))

instance (a b : F64) : Decidable (a ≤ b) := inferInstanceAs (Decidable (le a b = true))

instance (priority := 2000) : BEq F64 := ⟨eq⟩

end F64

/-- Operations for samples with NaN: the square root of a negative number or of
NaN is NaN, and `%v` prints NaN as `NaN`. -/
def f64Ops : Float64Ops F64 where
  sqrt := fun x =>
    match x with
    | .num q => if q < 0 then .nan else .num (Rat.sqrt q)
    | .nan => .nan
  format := fun x =>
    match x with
    | .num q => formatDecimal q
    | .nan => "NaN"

/-- The block `generateBlock` returns for the payload `[NaN]` on the genesis
block of `startTime`. -/
def nanBlock : Block F64 :=
  { Index := 0, Timestamp := tick 1, Data := [F64.nan],
    PrevHash := "876dc54aa7e1bcb8dc3dbee98012ac0b33fac89251a1c2d02d48ea3d0f3ea159",
    Hash := "624133149d85f3413b9805895a969c99110400d8a0c0f450d18d03db437bb505",
    Mean := F64.nan, Median := F64.nan, SDRange := F64.nan }

/-! ## The validator on every sample type -/

section AnySample

variable {β : Type} [Zero β] [One β] [LT β] [∀ a b : β, Decidable (a < b)]

/-- The range loop passes exactly the slices none of whose elements is below
`0` or above `1`; on `F64` these include the slices that hold NaN. -/
theorem rangeCheck_eq_true_iff (data : List β) :
    rangeCheck data = true ↔ ∀ v ∈ data, ¬ (v < 0 ∨ v > 1) := by
  induction data with
  | nil => simp [rangeCheck]
  | cons value rest ih =>
    by_cases hv : value < 0 ∨ value > 1
    · simp only [rangeCheck, hv, if_true, List.mem_cons, forall_eq_or_imp]
      constructor
      · intro h; cases h
      · rintro ⟨h, -⟩
        exact absurd trivial h
    · simp only [rangeCheck, hv, if_false, List.mem_cons, forall_eq_or_imp, ih]
      exact ⟨fun h => ⟨not_false, h⟩, fun h => h.2⟩

/-- The verdict of `isValidBlock` on every sample type: no element of `Data` is
below `0` or above `1`, and the stored hash is the digest of the block. -/
theorem isValidBlock_eq_true_iff (ops : Float64Ops β) (block : Block β) :
    isValidBlock ops block = true ↔
      (∀ v ∈ block.Data, ¬ (v < 0 ∨ v > 1)) ∧ calculateHash ops block = block.Hash := by
  rw [← rangeCheck_eq_true_iff]
  unfold isValidBlock
  by_cases hr : rangeCheck block.Data = true
  · by_cases hh : calculateHash ops block = block.Hash
    · simp [hr, hh]
    · simp [hr, hh]
  · simp [hr]

end AnySample

/-! ## The statistics engine -/

theorem index_natCast (data : List α) (i : Nat) (h : i < data.length) :
    index data (i : Int) = .ok (data.get ⟨i, h⟩) := by
  have h0 : ¬ ((i : Int) < 0) := by omega
  simp [index, h0, List.getElem?_eq_getElem h]

theorem length_sortFloat64s (data : List α) : (sortFloat64s data).length = data.length :=
  List.length_insertionSort _ data

theorem perm_sortFloat64s (data : List α) : (sortFloat64s data).Perm data :=
  List.perm_insertionSort _ data

theorem isNaN_eq_false (x : α) : isNaN x = false := by
  simp [isNaN]

theorem less_eq_false_iff (a b : α) : less b a = false ↔ a ≤ b := by
  simp [less, isNaN_eq_false]

theorem orderedInsert_less (a : α) (l : List α) :
    l.orderedInsert (fun a b => less b a = false) a = l.orderedInsert (· ≤ ·) a := by
  induction l with
  | nil => rfl
  | cons b rest ih =>
    simp only [List.orderedInsert, less_eq_false_iff, ih]

/-- In exact arithmetic no value is NaN, and `sort.Float64s` sorts by `≤`. -/
theorem sortFloat64s_eq (data : List α) : sortFloat64s data = data.insertionSort (· ≤ ·) := by
  induction data with
  | nil => rfl
  | cons a rest ih =>
    have h : sortFloat64s (a :: rest) =
        (sortFloat64s rest).orderedInsert (fun a b => less b a = false) a := rfl
    rw [h, ih, orderedInsert_less]
    rfl

theorem sorted_sortFloat64s (data : List α) : (sortFloat64s data).Sorted (· ≤ ·) := by
  rw [sortFloat64s_eq]
  exact List.sorted_insertionSort _ data

theorem sortFloat64s_unique (data s : List α) (hs : s.Sorted (· ≤ ·)) (hp : s.Perm data) :
    sortFloat64s data = s :=
  List.eq_of_perm_of_sorted ((perm_sortFloat64s data).trans hp.symm) (sorted_sortFloat64s data) hs

theorem median_ok (data : List α) (hne : data ≠ []) :
    ∃ v, median data = .ok (v, sortFloat64s data) ∧
      (data.length % 2 = 1 → (sortFloat64s data)[data.length / 2]? = some v) ∧
      (data.length % 2 = 0 → ∃ lo hi, (sortFloat64s data)[data.length / 2 - 1]? = some lo ∧
        (sortFloat64s data)[data.length / 2]? = some hi ∧ v = (lo + hi) / 2) := by
  have hlen := length_sortFloat64s data
  have hpos : 0 < data.length := List.length_pos.mpr hne
  by_cases hpar : data.length % 2 = 0
  · have h1 : data.length / 2 - 1 < (sortFloat64s data).length := by omega
    have h2 : data.length / 2 < (sortFloat64s data).length := by omega
    have hc : ((data.length / 2 : Nat) : Int) - 1 = ((data.length / 2 - 1 : Nat) : Int) := by omega
    refine ⟨((sortFloat64s data).get ⟨_, h1⟩ + (sortFloat64s data).get ⟨_, h2⟩) / 2, ?_, ?_, ?_⟩
    · unfold median
      simp only [hlen, hpar, if_true, hc]
      rw [index_natCast _ _ h1, index_natCast _ _ h2]
    · intro h; omega
    · intro _
      exact ⟨_, _, List.getElem?_eq_getElem h1, List.getElem?_eq_getElem h2, rfl⟩
  · have h2 : data.length / 2 < (sortFloat64s data).length := by omega
    refine ⟨(sortFloat64s data).get ⟨_, h2⟩, ?_, ?_, ?_⟩
    · unfold median
      simp only [hlen, hpar, if_false]
      rw [index_natCast _ _ h2]
    · intro _
      exact List.getElem?_eq_getElem h2
    · intro h; exact absurd h hpar

theorem median_nil : median ([] : List α) = .error .indexOutOfRange := by
  simp [median, sortFloat64s, index]


/-! ## The hasher and the block factory -/

theorem calculateHash_eq_of_fields (ops : Float64Ops α) (b c : Block α)
    (hi : b.Index = c.Index) (ht : b.Timestamp = c.Timestamp) (hd : b.Data = c.Data)
    (hp : b.PrevHash = c.PrevHash) : calculateHash ops b = calculateHash ops c := by
  simp only [calculateHash, record, hi, ht, hd, hp]

theorem addInt_neg_one : addInt (-1) 1 = 0 := by decide

theorem addInt_eq_add (a : Int) (h1 : -9223372036854775808 ≤ a + 1)
    (h2 : a + 1 < 9223372036854775808) : addInt a 1 = a + 1 := by
  unfold addInt
  omega

theorem nextIndex_eq (i : Int) : (if i = -1 then (0 : Int) else addInt i 1) = addInt i 1 := by
  split
  · next h => rw [h, addInt_neg_one]
  · rfl

theorem generateBlock_nil (ops : Float64Ops α) (prevBlock : Block α) (now : Time) :
    generateBlock ops prevBlock now [] = .error .indexOutOfRange := by
  simp [generateBlock, calculateStatistics, median_nil]

theorem generateBlock_ok (ops : Float64Ops α) (prevBlock : Block α) (now : Time)
    (data : List α) (hne : data ≠ []) :
    ∃ m, median data = .ok (m, sortFloat64s data) ∧
      generateBlock ops prevBlock now data = .ok
        { Index := addInt prevBlock.Index 1, Timestamp := now, Data := sortFloat64s data,
          PrevHash := prevBlock.Hash,
          Hash := calculateHash ops
            { Index := addInt prevBlock.Index 1, Timestamp := now, Data := data,
              PrevHash := prevBlock.Hash, Hash := "", Mean := 0, Median := 0, SDRange := 0 },
          Mean := mean data, Median := m, SDRange := sdRange ops (sortFloat64s data) } := by
  obtain ⟨m, hm, -⟩ := median_ok data hne
  refine ⟨m, hm, ?_⟩
  simp only [generateBlock, calculateStatistics, hm, nextIndex_eq]

theorem generateBlock_fields (ops : Float64Ops α) (prevBlock : Block α) (now : Time)
    (data : List α) (b : Block α) (h : generateBlock ops prevBlock now data = .ok b) :
    data ≠ [] ∧ b.Index = addInt prevBlock.Index 1 ∧ b.Timestamp = now ∧
      b.Data = sortFloat64s data ∧ b.PrevHash = prevBlock.Hash := by
  by_cases hne : data = []
  · subst hne
    rw [generateBlock_nil] at h
    cases h
  · obtain ⟨m, -, hg⟩ := generateBlock_ok ops prevBlock now data hne
    rw [hg] at h
    cases h
    exact ⟨hne, rfl, rfl, rfl, rfl⟩

/-! ## The validator -/

theorem rangeCheck_iff (data : List α) :
    rangeCheck data = true ↔ ∀ v ∈ data, 0 ≤ v ∧ v ≤ 1 := by
  induction data with
  | nil => simp [rangeCheck]
  | cons value rest ih =>
    by_cases hv : value < 0 ∨ value > 1
    · simp only [rangeCheck, hv, if_true, List.mem_cons, forall_eq_or_imp]
      constructor
      · intro h; cases h
      · rintro ⟨⟨h0, h1⟩, -⟩
        rcases hv with hv | hv
        · exact absurd h0 (not_le.mpr hv)
        · exact absurd h1 (not_le.mpr hv)
    · simp only [rangeCheck, hv, if_false, List.mem_cons, forall_eq_or_imp, ih]
      have h01 : 0 ≤ value ∧ value ≤ 1 := by
        constructor
        · exact not_lt.mp fun h => hv (Or.inl h)
        · exact not_lt.mp fun h => hv (Or.inr h)
      exact ⟨fun h => ⟨h01, h⟩, fun h => h.2⟩

theorem isValidBlock_iff_aux (ops : Float64Ops α) (block : Block α) :
    isValidBlock ops block = true ↔
      (∀ v ∈ block.Data, 0 ≤ v ∧ v ≤ 1) ∧ calculateHash ops block = block.Hash := by
  rw [← rangeCheck_iff]
  unfold isValidBlock
  by_cases hr : rangeCheck block.Data = true
  · by_cases hh : calculateHash ops block = block.Hash
    · simp [hr, hh]
    · simp [hr, hh]
  · simp [hr]


/-! ## The chain driver -/

theorem growthStep_append (ops : Float64Ops α) (init : Blockchain α) (tail : Block α)
    (now : Time) (data : List α) (b : Block α)
    (hg : generateBlock ops tail now data = .ok b) :
    growthStep ops (init ++ [tail]) now data =
      .ok (if isValidBlock ops b = true then init ++ [tail] ++ [b] else init ++ [tail]) := by
  unfold growthStep
  rw [List.getLast?_concat]
  simp only [hg]
  split <;> rfl

theorem chain_cases (blockchain : Blockchain α) :
    blockchain = [] ∨ ∃ init tail, blockchain = init ++ [tail] := by
  rcases List.eq_nil_or_concat blockchain with hnil | ⟨init, tail, hc⟩
  · exact Or.inl hnil
  · exact Or.inr ⟨init, tail, by rw [hc, List.concat_eq_append]⟩

theorem growthStep_cases (ops : Float64Ops α) (blockchain next : Blockchain α) (now : Time)
    (data : List α) (h : growthStep ops blockchain now data = .ok next) :
    ∃ init tail b, blockchain = init ++ [tail] ∧ generateBlock ops tail now data = .ok b ∧
      ((isValidBlock ops b = true ∧ next = blockchain ++ [b]) ∨
        (isValidBlock ops b = false ∧ next = blockchain)) := by
  rcases chain_cases blockchain with hnil | ⟨init, tail, hc⟩
  · subst hnil
    simp [growthStep] at h
  · subst hc
    cases hg : generateBlock ops tail now data with
    | error e =>
      simp [growthStep, List.getLast?_concat, hg] at h
    | ok b =>
      rw [growthStep_append ops init tail now data b hg] at h
      refine ⟨init, tail, b, rfl, hg, ?_⟩
      by_cases hv : isValidBlock ops b = true
      · rw [if_pos hv] at h
        cases h
        exact Or.inl ⟨hv, rfl⟩
      · rw [if_neg hv] at h
        cases h
        exact Or.inr ⟨by simpa using hv, rfl⟩

/-- Induction along the growth loop: a property of chains that every growth
iteration keeps holds of the chain the loop returns. -/
theorem growthLoop_induction (ops : Float64Ops α) (P : Blockchain α → Prop)
    (hstep : ∀ blockchain now data next, P blockchain →
      growthStep ops blockchain now data = .ok next → P next)
    (inputs : List (Time × List α)) :
    ∀ blockchain final, P blockchain → growthLoop ops blockchain inputs = .ok final → P final := by
  induction inputs with
  | nil =>
    intro blockchain final hP h
    simp only [growthLoop] at h
    cases h
    exact hP
  | cons p rest ih =>
    intro blockchain final hP h
    obtain ⟨now, data⟩ := p
    simp only [growthLoop] at h
    cases hs : growthStep ops blockchain now data with
    | error e => rw [hs] at h; cases h
    | ok next =>
      rw [hs] at h
      exact ih next final (hstep blockchain now data next hP hs) h

/-- The growth loop returns a chain when the chain it starts from has a last
block and no payload is empty. -/
theorem growthLoop_ok (ops : Float64Ops α) (inputs : List (Time × List α))
    (hne : ∀ p ∈ inputs, p.2 ≠ []) :
    ∀ blockchain : Blockchain α, blockchain ≠ [] →
      ∃ final, growthLoop ops blockchain inputs = .ok final := by
  induction inputs with
  | nil => intro blockchain _; exact ⟨blockchain, rfl⟩
  | cons p rest ih =>
    intro blockchain hb
    obtain ⟨now, data⟩ := p
    have hd : data ≠ [] := hne (now, data) (List.mem_cons_self _ _)
    rcases chain_cases blockchain with hnil | ⟨init, tail, hc⟩
    · exact absurd hnil hb
    · subst hc
      obtain ⟨m, -, hg⟩ := generateBlock_ok ops tail now data hd
      simp only [growthLoop]
      rw [growthStep_append ops init tail now data _ hg]
      apply ih (fun q hq => hne q (List.mem_cons_of_mem _ hq))
      split <;> simp

theorem linked_concat (init : Blockchain α) (tail b : Block α)
    (hl : Linked (init ++ [tail])) (hb : b.PrevHash = tail.Hash) :
    Linked (init ++ [tail] ++ [b]) := by
  intro i h
  by_cases hi : i + 1 < (init ++ [tail]).length
  · rw [List.getElem_append_left hi, List.getElem_append_left (Nat.lt_of_succ_lt hi)]
    exact hl i hi
  · have hi2 : i = init.length := by
      simp only [List.length_append, List.length_singleton] at hi h
      omega
    subst hi2
    simp [List.getElem_append_right, hb]

theorem growthStep_linked (ops : Float64Ops α) (blockchain next : Blockchain α) (now : Time)
    (data : List α) (hl : Linked blockchain)
    (h : growthStep ops blockchain now data = .ok next) : Linked next := by
  obtain ⟨init, tail, b, hc, hg, hv | hv⟩ := growthStep_cases ops blockchain next now data h
  · rw [hv.2, hc]
    apply linked_concat init tail b (hc ▸ hl)
    exact (generateBlock_fields ops tail now data b hg).2.2.2.2
  · rw [hv.2]; exact hl

theorem linked_singleton (b : Block α) : Linked [b] := by
  intro i h
  simp at h


theorem indexed_concat (init : Blockchain α) (tail b : Block α)
    (hx : Indexed (init ++ [tail])) (hb : b.Index = ((init.length + 1 : Nat) : Int) - 1) :
    Indexed (init ++ [tail] ++ [b]) := by
  intro i h
  by_cases hi : i < (init ++ [tail]).length
  · rw [List.getElem_append_left hi]
    exact hx i hi
  · have hi2 : i = init.length + 1 := by
      simp only [List.length_append, List.length_singleton] at hi h
      omega
    subst hi2
    simp [List.getElem_append_right, hb]

theorem indexed_tail (init : Blockchain α) (tail : Block α) (hx : Indexed (init ++ [tail])) :
    tail.Index = (init.length : Int) - 1 := by
  have h := hx init.length (by simp)
  simpa using h

/-- Along the growth loop the chain stays indexed from the sentinel and gains
at most one block per iteration, as long as the indices stay below the largest
`int`. -/
theorem growthLoop_indexed (ops : Float64Ops α) (inputs : List (Time × List α)) :
    ∀ blockchain final : Blockchain α, Indexed blockchain →
      blockchain.length + inputs.length ≤ 9223372036854775808 →
      growthLoop ops blockchain inputs = .ok final →
      Indexed final ∧ final.length ≤ blockchain.length + inputs.length := by
  induction inputs with
  | nil =>
    intro blockchain final hx _ h
    simp only [growthLoop] at h
    cases h
    exact ⟨hx, by simp⟩
  | cons p rest ih =>
    intro blockchain final hx hlen h
    obtain ⟨now, data⟩ := p
    simp only [growthLoop] at h
    simp only [List.length_cons] at hlen
    cases hs : growthStep ops blockchain now data with
    | error e => rw [hs] at h; cases h
    | ok next =>
      rw [hs] at h
      obtain ⟨init, tail, b, hc, hg, hv | hv⟩ := growthStep_cases ops blockchain next now data hs
      · have hb := (generateBlock_fields ops tail now data b hg).2.1
        subst hc
        have ht := indexed_tail init tail hx
        simp only [List.length_append, List.length_singleton] at hlen
        have hnext : Indexed next := by
          rw [hv.2]
          apply indexed_concat init tail b hx
          rw [hb, ht, addInt_eq_add _ (by omega) (by omega)]
          push_cast
          ring
        have hl : next.length = init.length + 1 + 1 := by rw [hv.2]; simp
        obtain ⟨h1, h2⟩ := ih next final hnext (by omega) h
        exact ⟨h1, by simp only [List.length_append, List.length_singleton, List.length_cons]; omega⟩
      · rw [hv.2] at h
        obtain ⟨h1, h2⟩ := ih blockchain final hx (by omega) h
        exact ⟨h1, by simp only [List.length_cons]; omega⟩

theorem indexed_genesis (ops : Float64Ops α) (start : Time) : Indexed [genesis ops start] := by
  intro i h
  have hi : i = 0 := by simpa using h
  subst hi
  simp [genesis]

/-- A payload with a value outside the unit interval fails the range check
after sorting as well. -/
theorem rangeCheck_sort_false (data : List α) (h : ∃ v ∈ data, v < 0 ∨ 1 < v) :
    rangeCheck (sortFloat64s data) = false := by
  obtain ⟨v, hv, hout⟩ := h
  rw [← Bool.not_eq_true, rangeCheck_iff]
  intro hall
  have hmem : v ∈ sortFloat64s data := (perm_sortFloat64s data).mem_iff.mpr hv
  obtain ⟨h0, h1⟩ := hall v hmem
  rcases hout with hout | hout
  · exact absurd h0 (not_le.mpr hout)
  · exact absurd h1 (not_le.mpr hout)


theorem payload_ne_nil (rand : Nat → Nat → α) (i : Nat) : payload rand i ≠ [] := by
  simp [payload]

theorem main_payloads_ne_nil (clock : Nat → Time) (rand : Nat → Nat → α) :
    ∀ p ∈ (List.range 10).map (fun i => (clock i, payload rand i)), p.2 ≠ [] := by
  intro p hp
  obtain ⟨i, -, rfl⟩ := List.mem_map.mp hp
  exact payload_ne_nil rand i

/-! ## Sums, means and spreads -/

theorem foldl_add_eq_sum (f : α → α) (data : List α) (a : α) :
    data.foldl (fun acc value => acc + f value) a = a + (data.map f).sum := by
  induction data generalizing a with
  | nil => simp
  | cons v rest ih => simp [ih, add_assoc]

theorem mean_eq_sum_div (data : List α) : mean data = data.sum / (data.length : α) := by
  unfold mean
  have h := foldl_add_eq_sum (fun v => v) data 0
  simp only [List.map_id', zero_add] at h
  rw [h]

theorem sdRange_eq (ops : Float64Ops α) (data : List α) :
    sdRange ops data = 2 * ops.sqrt
      ((data.map fun v => (v - mean data) * (v - mean data)).sum / (data.length : α)) := by
  unfold sdRange
  simp only [foldl_add_eq_sum, zero_add]

theorem mean_perm (data other : List α) (hp : data.Perm other) : mean data = mean other := by
  rw [mean_eq_sum_div, mean_eq_sum_div, hp.sum_eq, hp.length_eq]

theorem sdRange_perm (ops : Float64Ops α) (data other : List α) (hp : data.Perm other) :
    sdRange ops data = sdRange ops other := by
  rw [sdRange_eq, sdRange_eq, mean_perm data other hp, (hp.map _).sum_eq, hp.length_eq]

theorem length_cast_pos (data : List α) (hne : data ≠ []) : (0 : α) < (data.length : α) := by
  exact_mod_cast List.length_pos.mpr hne

theorem sum_map_affine (c d : α) (data : List α) :
    (data.map fun v => c + d * v).sum = (data.length : α) * c + d * data.sum := by
  induction data with
  | nil => simp
  | cons v rest ih =>
    simp only [List.map_cons, List.sum_cons, List.length_cons, ih]
    push_cast
    ring

theorem sum_map_le_sum_map (f g : α → α) (data : List α) (h : ∀ v ∈ data, f v ≤ g v) :
    (data.map f).sum ≤ (data.map g).sum := by
  induction data with
  | nil => simp
  | cons v rest ih =>
    simp only [List.map_cons, List.sum_cons]
    exact add_le_add (h v (List.mem_cons_self _ _))
      (ih fun w hw => h w (List.mem_cons_of_mem _ hw))

theorem sum_map_nonneg (f : α → α) (data : List α) (h : ∀ v ∈ data, 0 ≤ f v) :
    0 ≤ (data.map f).sum := by
  have := sum_map_le_sum_map (fun _ => 0) f data h
  simpa using this

theorem sum_bounds (data : List α) (lo hi : α) (h : ∀ v ∈ data, lo ≤ v ∧ v ≤ hi) :
    (data.length : α) * lo ≤ data.sum ∧ data.sum ≤ (data.length : α) * hi := by
  induction data with
  | nil => simp
  | cons v rest ih =>
    obtain ⟨h1, h2⟩ := ih fun w hw => h w (List.mem_cons_of_mem _ hw)
    obtain ⟨hv1, hv2⟩ := h v (List.mem_cons_self _ _)
    simp only [List.sum_cons, List.length_cons]
    push_cast
    constructor <;> nlinarith

theorem mean_bounds (data : List α) (hne : data ≠ []) (lo hi : α)
    (h : ∀ v ∈ data, lo ≤ v ∧ v ≤ hi) : lo ≤ mean data ∧ mean data ≤ hi := by
  have hn := length_cast_pos data hne
  obtain ⟨h1, h2⟩ := sum_bounds data lo hi h
  rw [mean_eq_sum_div]
  constructor
  · rw [le_div_iff₀ hn]; linarith
  · rw [div_le_iff₀ hn]; linarith

/-- The sum of squared deviations from the mean, as `sdRange` accumulates it. -/
theorem sumSquaredDiff_nonneg (data : List α) :
    0 ≤ (data.map fun v => (v - mean data) * (v - mean data)).sum :=
  sum_map_nonneg _ data fun _ _ => mul_self_nonneg _

theorem sum_sub_mean (data : List α) (hne : data ≠ []) :
    data.sum - (data.length : α) * mean data = 0 := by
  have hn := length_cast_pos data hne
  rw [mean_eq_sum_div]
  field_simp

/-- The variance of values between `lo` and `hi` is at most
`(mean - lo) * (hi - mean)`. -/
theorem variance_le (data : List α) (hne : data ≠ []) (lo hi : α)
    (h : ∀ v ∈ data, lo ≤ v ∧ v ≤ hi) :
    (data.map fun v => (v - mean data) * (v - mean data)).sum / (data.length : α) ≤
      (mean data - lo) * (hi - mean data) := by
  have hn := length_cast_pos data hne
  have hpoint : ∀ v ∈ data, (v - mean data) * (v - mean data) ≤
      ((mean data - lo) * (hi - mean data) - (lo + hi - 2 * mean data) * mean data) +
        (lo + hi - 2 * mean data) * v := by
    intro v hv
    obtain ⟨h1, h2⟩ := h v hv
    have : 0 ≤ (v - lo) * (hi - v) := mul_nonneg (by linarith) (by linarith)
    nlinarith
  have hsum := sum_map_le_sum_map _ _ data hpoint
  rw [sum_map_affine] at hsum
  have hz := sum_sub_mean data hne
  rw [div_le_iff₀ hn]
  have hs : data.sum = (data.length : α) * mean data := by linarith
  rw [hs] at hsum
  calc (data.map fun v => (v - mean data) * (v - mean data)).sum
      ≤ (data.length : α) * ((mean data - lo) * (hi - mean data) -
          (lo + hi - 2 * mean data) * mean data) +
          (lo + hi - 2 * mean data) * ((data.length : α) * mean data) := hsum
    _ = (mean data - lo) * (hi - mean data) * (data.length : α) := by ring

theorem exactSqrt_le (ops : Float64Ops α) (hs : ExactSqrt ops) (x b : α) (hx : 0 ≤ x)
    (hb : 0 ≤ b) (h : x ≤ b * b) : ops.sqrt x ≤ b := by
  obtain ⟨h0, h1⟩ := hs x hx
  by_contra hlt
  have hlt2 : b < ops.sqrt x := not_le.mp hlt
  nlinarith

theorem exactSqrt_zero (ops : Float64Ops α) (hs : ExactSqrt ops) : ops.sqrt 0 = 0 := by
  obtain ⟨-, h1⟩ := hs 0 le_rfl
  exact mul_self_eq_zero.mp h1

theorem exactSqrt_scale (ops : Float64Ops α) (hs : ExactSqrt ops) (k x : α) (hk : 0 ≤ k)
    (hx : 0 ≤ x) : ops.sqrt (k * k * x) = k * ops.sqrt x := by
  obtain ⟨h0, h1⟩ := hs x hx
  obtain ⟨h2, h3⟩ := hs (k * k * x) (mul_nonneg (mul_self_nonneg k) hx)
  have hsq : ops.sqrt (k * k * x) * ops.sqrt (k * k * x) =
      (k * ops.sqrt x) * (k * ops.sqrt x) := by
    rw [h3]
    calc k * k * x = k * k * (ops.sqrt x * ops.sqrt x) := by rw [h1]
      _ = (k * ops.sqrt x) * (k * ops.sqrt x) := by ring
  exact (mul_self_inj h2 (mul_nonneg hk h0)).mp hsq

theorem variance_nonneg (data : List α) :
    0 ≤ (data.map fun v => (v - mean data) * (v - mean data)).sum / (data.length : α) :=
  div_nonneg (sumSquaredDiff_nonneg data) (Nat.cast_nonneg _)

theorem sdRange_nonneg (ops : Float64Ops α) (hs : ExactSqrt ops) (data : List α) :
    0 ≤ sdRange ops data := by
  rw [sdRange_eq]
  exact mul_nonneg (by norm_num) (hs _ (variance_nonneg data)).1

theorem sdRange_le (ops : Float64Ops α) (hs : ExactSqrt ops) (data : List α) (hne : data ≠ [])
    (lo hi : α) (h : ∀ v ∈ data, lo ≤ v ∧ v ≤ hi) : sdRange ops data ≤ hi - lo := by
  obtain ⟨hm1, hm2⟩ := mean_bounds data hne lo hi h
  have hv := variance_le data hne lo hi h
  have hb : (0 : α) ≤ (hi - lo) / 2 := by linarith
  have hle : ops.sqrt ((data.map fun v => (v - mean data) * (v - mean data)).sum /
      (data.length : α)) ≤ (hi - lo) / 2 := by
    apply exactSqrt_le ops hs _ _ (variance_nonneg data) hb
    have : (mean data - lo) * (hi - mean data) ≤ (hi - lo) / 2 * ((hi - lo) / 2) := by
      nlinarith [sq_nonneg (mean data - lo - (hi - mean data))]
    linarith
  rw [sdRange_eq]
  linarith

theorem mean_scale (k : α) (data : List α) :
    mean (data.map fun v => k * v) = k * mean data := by
  rw [mean_eq_sum_div, mean_eq_sum_div, List.length_map, List.sum_map_mul_left,
    List.map_id', mul_div_assoc]

theorem sdRange_scale (ops : Float64Ops α) (hs : ExactSqrt ops) (k : α) (hk : 0 ≤ k)
    (data : List α) :
    sdRange ops (data.map fun v => k * v) = k * sdRange ops data := by
  rw [sdRange_eq, sdRange_eq, mean_scale, List.length_map, List.map_map]
  have hmap : (data.map ((fun v => (v - k * mean data) * (v - k * mean data)) ∘ fun v => k * v)) =
      data.map fun v => k * k * ((v - mean data) * (v - mean data)) := by
    apply List.map_congr_left
    intro v _
    simp only [Function.comp]
    ring
  rw [hmap, List.sum_map_mul_left, mul_div_assoc,
    exactSqrt_scale ops hs k _ hk (variance_nonneg data)]
  ring

/-! ## Order statistics -/

theorem median_perm (data other : List α) (hp : data.Perm other) :
    median data = median other := by
  have hs : sortFloat64s data = sortFloat64s other :=
    sortFloat64s_unique data (sortFloat64s other) (sorted_sortFloat64s other)
      ((perm_sortFloat64s other).trans hp.symm)
  unfold median
  rw [hs]

/-- In an ascending list, fewer than `k + 1` elements lie strictly below a
bound that the element at position `k` reaches. -/
theorem sorted_countP_lt_le (s : List α) (hs : s.Sorted (· ≤ ·)) (k : Nat) (x v : α)
    (hk : s[k]? = some x) (hv : v ≤ x) : s.countP (fun y => decide (y < v)) ≤ k := by
  have hlt : k < s.length := by
    by_contra hge
    rw [List.getElem?_eq_none (not_lt.mp hge)] at hk
    cases hk
  have hx : s[k] = x := by
    rw [List.getElem?_eq_getElem hlt] at hk
    exact Option.some.inj hk
  have hdrop : (s.drop k).countP (fun y => decide (y < v)) = 0 := by
    rw [List.countP_eq_zero]
    intro y hy
    have hxy : x ≤ y := by
      rw [List.drop_eq_getElem_cons hlt, List.mem_cons] at hy
      rcases hy with hy | hy
      · rw [hy, hx]
      · have hmem : x ∈ s.take (k + 1) := by
          rw [List.take_succ, hk]
          simp
        exact hs.rel_of_mem_take_of_mem_drop hmem hy
    simpa using le_trans hv hxy
  have htake : (s.take k).countP (fun y => decide (y < v)) ≤ k :=
    le_trans (List.countP_le_length _) (List.length_take_le k s)
  calc s.countP (fun y => decide (y < v))
      = (s.take k ++ s.drop k).countP (fun y => decide (y < v)) := by
        rw [List.take_append_drop]
    _ = (s.take k).countP (fun y => decide (y < v)) := by
        rw [List.countP_append, hdrop, Nat.add_zero]
    _ ≤ k := htake

theorem sorted_getElem?_le (s : List α) (hs : s.Sorted (· ≤ ·)) (i j : Nat) (x y : α)
    (hij : i ≤ j) (hi : s[i]? = some x) (hj : s[j]? = some y) : x ≤ y := by
  have hjl : j < s.length := by
    by_contra hge
    rw [List.getElem?_eq_none (not_lt.mp hge)] at hj
    cases hj
  have hil : i < s.length := lt_of_le_of_lt hij hjl
  rw [List.getElem?_eq_getElem hil] at hi
  rw [List.getElem?_eq_getElem hjl] at hj
  have h := hs.rel_get_of_le (show (⟨i, hil⟩ : Fin s.length) ≤ ⟨j, hjl⟩ from hij)
  rw [List.get_eq_getElem, List.get_eq_getElem] at h
  rw [← Option.some.inj hi, ← Option.some.inj hj]
  exact h

theorem median_countP_le (data : List α) (hne : data ≠ []) :
    ∃ v s, median data = .ok (v, s) ∧
      data.countP (fun y => decide (y < v)) ≤ (data.length + 1) / 2 := by
  obtain ⟨v, hm, hodd, heven⟩ := median_ok data hne
  refine ⟨v, _, hm, ?_⟩
  rw [← (perm_sortFloat64s data).countP_eq]
  have hsorted := sorted_sortFloat64s data
  rcases Nat.mod_two_eq_zero_or_one data.length with hpar | hpar
  · obtain ⟨lo, hi, hlo, hhi, hv⟩ := heven hpar
    have hle : lo ≤ hi :=
      sorted_getElem?_le _ hsorted _ _ lo hi (Nat.sub_le _ _) hlo hhi
    have hvhi : v ≤ hi := by rw [hv]; linarith
    have := sorted_countP_lt_le _ hsorted _ hi v hhi hvhi
    omega
  · have := sorted_countP_lt_le _ hsorted _ v v (hodd hpar) le_rfl
    omega

theorem median_bounds (data : List α) (hne : data ≠ []) (lo hi : α)
    (h : ∀ v ∈ data, lo ≤ v ∧ v ≤ hi) :
    ∃ v s, median data = .ok (v, s) ∧ lo ≤ v ∧ v ≤ hi := by
  obtain ⟨v, hm, hodd, heven⟩ := median_ok data hne
  refine ⟨v, _, hm, ?_⟩
  have hmem : ∀ (i : Nat) (x : α), (sortFloat64s data)[i]? = some x → lo ≤ x ∧ x ≤ hi :=
    fun i x hx => h x ((perm_sortFloat64s data).mem_iff.mp (List.getElem?_mem hx))
  rcases Nat.mod_two_eq_zero_or_one data.length with hpar | hpar
  · obtain ⟨a, b, ha, hb, hv⟩ := heven hpar
    obtain ⟨ha1, ha2⟩ := hmem _ a ha
    obtain ⟨hb1, hb2⟩ := hmem _ b hb
    rw [hv]
    constructor <;> linarith
  · exact hmem _ v (hodd hpar)

/-! ## The genesis block -/

theorem hexDigest_ne_empty (msg : List Nat) : SHA256.hexDigest msg ≠ "" := by
  intro h
  have hl := congrArg String.length h
  simp [SHA256.hexDigest, SHA256.digestWords, SHA256.hexWord] at hl

theorem calculateHash_genesis (ops : Float64Ops α) (start : Time) :
    (genesis ops start).Hash = calculateHash ops (genesis ops start) :=
  calculateHash_eq_of_fields ops _ _ rfl rfl rfl rfl

theorem growthLoop_head (ops : Float64Ops α) (inputs : List (Time × List α)) (g : Block α) :
    ∀ (rest final : Blockchain α), growthLoop ops (g :: rest) inputs = .ok final →
      ∃ more, final = g :: (rest ++ more) := by
  induction inputs with
  | nil =>
    intro rest final h
    simp only [growthLoop] at h
    cases h
    exact ⟨[], by simp⟩
  | cons p tl ih =>
    intro rest final h
    obtain ⟨now, data⟩ := p
    simp only [growthLoop] at h
    cases hs : growthStep ops (g :: rest) now data with
    | error e => rw [hs] at h; cases h
    | ok next =>
      rw [hs] at h
      obtain ⟨init, tail, b, -, -, hv | hv⟩ := growthStep_cases ops _ next now data hs
      · rw [hv.2, List.cons_append] at h
        obtain ⟨more, hm⟩ := ih (rest ++ [b]) final h
        exact ⟨b :: more, by rw [hm]; simp⟩
      · rw [hv.2] at h
        exact ih rest final h

theorem growthStep_head (ops : Float64Ops α) (g : Block α) (rest next : Blockchain α)
    (now : Time) (data : List α) (h : growthStep ops (g :: rest) now data = .ok next) :
    next.head? = some g := by
  obtain ⟨init, tail, b, -, -, hv | hv⟩ := growthStep_cases ops _ next now data h
  · rw [hv.2]; rfl
  · rw [hv.2]; rfl

/-- The real square root is exact. -/
theorem exactSqrt_real : ExactSqrt (opsWith Real.sqrt) :=
  fun x hx => ⟨Real.sqrt_nonneg x, Real.mul_self_sqrt hx⟩

theorem generateBlock_hash_eq (ops : Float64Ops α) (prevBlock : Block α) (now : Time)
    (data : List α) (b : Block α) (h : generateBlock ops prevBlock now data = .ok b) :
    b.Hash = calculateHash ops { b with Data := data } := by
  have hne := (generateBlock_fields ops prevBlock now data b h).1
  obtain ⟨m, -, hg⟩ := generateBlock_ok ops prevBlock now data hne
  rw [hg] at h
  cases h
  exact calculateHash_eq_of_fields ops _ _ rfl rfl rfl rfl

theorem generateBlock_stats (ops : Float64Ops α) (prevBlock : Block α) (now : Time)
    (data : List α) (hne : data ≠ []) :
    ∃ b m, generateBlock ops prevBlock now data = .ok b ∧
      median data = .ok (m, sortFloat64s data) ∧ b.Data = sortFloat64s data ∧
      b.Mean = mean data ∧ b.Median = m ∧ b.SDRange = sdRange ops (sortFloat64s data) := by
  obtain ⟨m, hm, hg⟩ := generateBlock_ok ops prevBlock now data hne
  exact ⟨_, m, hg, hm, rfl, rfl, rfl, rfl⟩

/-! ## The claims -/

/-- The three iterations of `scenarioInputs` on the genesis block of `startTime`
build `scenarioChain`. -/
theorem scenario_run :
    growthLoop ratOps [genesis ratOps startTime] scenarioInputs = .ok scenarioChain := by
  decide!

/-- C1, evaluated where it fails.  For the payload `[0.5, 0.25]` on the genesis
block, `generateBlock` returns a block whose `Data` is the sorted payload
`[0.25, 0.5]` while its `Hash` is still the digest taken before sorting: the
stored hash differs from `calculateHash` of the returned block, and
`isValidBlock` rejects the block. -/
theorem generateBlock_hash_stale :
    generateBlock ratOps (genesis ratOps startTime) (tick 0) [1 / 2, 1 / 4] = .ok staleBlock ∧
      calculateHash ratOps staleBlock =
        "8ea42d50a018c8c30ac5962bd2cf7ad3dbb7b039c4d239eb2b215d2d73a5d93f" ∧
      staleBlock.Hash ≠ calculateHash ratOps staleBlock ∧
      isValidBlock ratOps staleBlock = false := by
  decide!

/-- C2, evaluated where it fails.  With every draw in `[0, 1]` and every
payload `[0.5, 0.25, ..., 0.25]`, all ten candidates of `main` are rejected: the
chain `main` ends with is the genesis block alone, one block and not eleven. -/
theorem main_rejects_every_candidate :
    (∀ i < 10, ∀ j < 10, 0 ≤ unsortedDraw i j ∧ unsortedDraw i j ≤ 1) ∧
      main ratOps startTime tick unsortedDraw = .ok [genesis ratOps startTime] := by
  decide!

/-- C3.  Whatever the clock readings and payloads of the growth iterations,
and however many candidates are dropped, in the chain grown from the genesis
block every block after the first has as `PrevHash` the `Hash` of the block
right before it; the run returns a chain when no payload is empty; and `main`,
for every clock and every draws, returns a chain that is linked in this way. -/
theorem chain_linkage (ops : Float64Ops α) (start : Time) :
    (∀ (inputs : List (Time × List α)) (chain : Blockchain α),
      growthLoop ops [genesis ops start] inputs = .ok chain →
      ∀ (i : Nat) (h : i + 1 < chain.length), chain[i + 1].PrevHash = chain[i].Hash) ∧
    (∀ (inputs : List (Time × List α)), (∀ p ∈ inputs, p.2 ≠ []) →
      ∃ chain, growthLoop ops [genesis ops start] inputs = .ok chain) ∧
    (∀ (clock : Nat → Time) (rand : Nat → Nat → α),
      ∃ chain, main ops start clock rand = .ok chain ∧
        ∀ (i : Nat) (h : i + 1 < chain.length), chain[i + 1].PrevHash = chain[i].Hash) := by
  have hlink : ∀ (inputs : List (Time × List α)) (chain : Blockchain α),
      growthLoop ops [genesis ops start] inputs = .ok chain → Linked chain := by
    intro inputs chain h
    exact growthLoop_induction ops Linked (fun c now data next hl hs =>
      growthStep_linked ops c next now data hl hs) inputs _ chain
      (linked_singleton (genesis ops start)) h
  refine ⟨hlink, fun inputs hne => growthLoop_ok ops inputs hne _ (by simp), ?_⟩
  intro clock rand
  obtain ⟨chain, hc⟩ := growthLoop_ok ops _ (main_payloads_ne_nil clock rand)
    [genesis ops start] (by simp)
  exact ⟨chain, hc, hlink _ chain hc⟩

/-- C3 at a concrete run: three iterations, the second candidate dropped, two
blocks appended, each naming the hash of the block before it. -/
theorem chain_linkage_witness :
    growthLoop ratOps [genesis ratOps startTime] scenarioInputs = .ok scenarioChain ∧
      ∀ (i : Nat) (h : i + 1 < scenarioChain.length),
        scenarioChain[i + 1].PrevHash = scenarioChain[i].Hash :=
  ⟨scenario_run, (chain_linkage ratOps startTime).1 scenarioInputs scenarioChain scenario_run⟩

/-- C4.  For a non-empty payload `generateBlock` returns a block, and the block
it returns has `Index` equal to the predecessor's `Index` plus one in `int`
arithmetic, which is `0` for the sentinel `-1` and the integer successor for
every predecessor below the largest `int`; and in the chain grown from the
genesis block by any run of fewer than `2^63` iterations, dropped candidates or
not, and so in the chain `main` returns, the block at position `i` has `Index`
`i - 1`. -/
theorem index_invariant (ops : Float64Ops α) :
    (∀ (prevBlock : Block α) (now : Time) (data : List α), data ≠ [] →
      ∃ b, generateBlock ops prevBlock now data = .ok b) ∧
    (∀ (prevBlock : Block α) (now : Time) (data : List α) (b : Block α),
      generateBlock ops prevBlock now data = .ok b →
        b.Index = addInt prevBlock.Index 1 ∧ (prevBlock.Index = -1 → b.Index = 0) ∧
        (-9223372036854775808 ≤ prevBlock.Index → prevBlock.Index < 9223372036854775807 →
          b.Index = prevBlock.Index + 1)) ∧
    (∀ (start : Time) (inputs : List (Time × List α)) (chain : Blockchain α),
      inputs.length < 9223372036854775808 →
      growthLoop ops [genesis ops start] inputs = .ok chain →
        ∀ (i : Nat) (h : i < chain.length), chain[i].Index = (i : Int) - 1) ∧
    (∀ (start : Time) (clock : Nat → Time) (rand : Nat → Nat → α) (chain : Blockchain α),
      main ops start clock rand = .ok chain →
        ∀ (i : Nat) (h : i < chain.length), chain[i].Index = (i : Int) - 1) := by
  refine ⟨?_, ?_, ?_, ?_⟩
  · intro prevBlock now data hne
    obtain ⟨m, -, hg⟩ := generateBlock_ok ops prevBlock now data hne
    exact ⟨_, hg⟩
  · intro prevBlock now data b h
    have hi := (generateBlock_fields ops prevBlock now data b h).2.1
    refine ⟨hi, fun hs => ?_, fun hlo hhi => ?_⟩
    · rw [hi, hs, addInt_neg_one]
    · rw [hi, addInt_eq_add _ (by omega) (by omega)]
  · intro start inputs chain hlen h
    have hx := growthLoop_indexed ops inputs [genesis ops start] chain
      (indexed_genesis ops start) (by simp only [List.length_singleton]; omega) h
    exact hx.1
  · intro start clock rand chain h
    have hx := growthLoop_indexed ops _ [genesis ops start] chain
      (indexed_genesis ops start) (by simp) h
    exact hx.1

/-- C4 at a concrete run: three iterations, the second candidate dropped; the
blocks of the chain have indices `-1`, `0`, `1`. -/
theorem index_invariant_witness :
    scenarioInputs.length < 9223372036854775808 ∧
      growthLoop ratOps [genesis ratOps startTime] scenarioInputs = .ok scenarioChain ∧
      ∀ (i : Nat) (h : i < scenarioChain.length), scenarioChain[i].Index = (i : Int) - 1 :=
  ⟨by decide, scenario_run,
    (index_invariant ratOps).2.2.1 startTime scenarioInputs scenarioChain (by decide)
      scenario_run⟩

/-- In exact arithmetic, where no sample is NaN, `isValidBlock` accepts a block
exactly when every element of its `Data` lies in `[0, 1]` and `calculateHash`
of the block equals its stored `Hash`; no predecessor enters the verdict: with
any `Index` and any `PrevHash` written into the block and the hash taken over
the result, the verdict is that of the range check on `Data`. -/
theorem isValidBlock_iff (ops : Float64Ops α) (block : Block α) :
    (isValidBlock ops block = true ↔
      (∀ v ∈ block.Data, 0 ≤ v ∧ v ≤ 1) ∧ calculateHash ops block = block.Hash) ∧
    (∀ (i : Int) (p : String),
      isValidBlock ops
        { block with
          Index := i, PrevHash := p,
          Hash := calculateHash ops { block with Index := i, PrevHash := p } } =
      rangeCheck block.Data) := by
  refine ⟨isValidBlock_iff_aux ops block, fun i p => ?_⟩
  have hh : calculateHash ops
      { block with
        Index := i, PrevHash := p,
        Hash := calculateHash ops { block with Index := i, PrevHash := p } } =
      calculateHash ops { block with Index := i, PrevHash := p } :=
    calculateHash_eq_of_fields ops _ _ rfl rfl rfl rfl
  cases hr : rangeCheck block.Data
  · simp [isValidBlock, hr]
  · simp only [isValidBlock, hr, hh]
    simp

/-- In exact arithmetic, when the payload has a value below `0` or above `1`,
`generateBlock` on the last block of the chain returns a candidate,
`isValidBlock` rejects it, and the growth step returns the chain as it was, so
its last block is unchanged. -/
theorem rejection_keeps_chain (ops : Float64Ops α) (init : Blockchain α) (tail : Block α)
    (now : Time) (data : List α) (h : ∃ v ∈ data, v < 0 ∨ 1 < v) :
    ∃ candidate, generateBlock ops tail now data = .ok candidate ∧
      isValidBlock ops candidate = false ∧
      growthStep ops (init ++ [tail]) now data = .ok (init ++ [tail]) ∧
      (init ++ [tail]).getLast? = some tail := by
  have hne : data ≠ [] := by
    obtain ⟨v, hv, -⟩ := h
    exact List.ne_nil_of_mem hv
  obtain ⟨m, -, hg⟩ := generateBlock_ok ops tail now data hne
  have hrej : isValidBlock ops
      { Index := addInt tail.Index 1, Timestamp := now, Data := sortFloat64s data,
        PrevHash := tail.Hash,
        Hash := calculateHash ops
          { Index := addInt tail.Index 1, Timestamp := now, Data := data,
            PrevHash := tail.Hash, Hash := "", Mean := 0, Median := 0, SDRange := 0 },
        Mean := mean data, Median := m, SDRange := sdRange ops (sortFloat64s data) } = false := by
    simp [isValidBlock, rangeCheck_sort_false data h]
  refine ⟨_, hg, hrej, ?_, List.getLast?_concat _⟩
  rw [growthStep_append ops init tail now data _ hg, hrej]
  simp

/-- The payload `[0.5, 2]` offered on the genesis block is rejected. -/
theorem rejection_keeps_chain_witness :
    (∃ v ∈ ([1 / 2, 2] : List ℚ), v < 0 ∨ 1 < v) ∧
      ∃ candidate, generateBlock ratOps (genesis ratOps startTime) (tick 0) [1 / 2, 2] =
          .ok candidate ∧
        isValidBlock ratOps candidate = false ∧
        growthStep ratOps ([] ++ [genesis ratOps startTime]) (tick 0) [1 / 2, 2] =
          .ok ([] ++ [genesis ratOps startTime]) ∧
        ([] ++ [genesis ratOps startTime]).getLast? = some (genesis ratOps startTime) :=
  ⟨⟨2, by simp, Or.inr (by norm_num)⟩,
    rejection_keeps_chain ratOps [] (genesis ratOps startTime) (tick 0) [1 / 2, 2]
      ⟨2, by simp, Or.inr (by norm_num)⟩⟩

/-- C5, evaluated where it fails.  The block with `Data = [NaN]` whose `Hash`
is the digest of its own fields is accepted by `isValidBlock`, although NaN does
not lie in `[0, 1]`: the range loop asks `value < 0 || value > 1`, and both
comparisons are false of NaN. -/
theorem isValidBlock_accepts_nan :
    nanBlock.Data = [F64.nan] ∧ isNaN F64.nan = true ∧
      ¬ ((0 : F64) ≤ F64.nan ∧ F64.nan ≤ 1) ∧
      ¬ (F64.nan < 0 ∨ F64.nan > 1) ∧
      calculateHash f64Ops nanBlock = nanBlock.Hash ∧
      isValidBlock f64Ops nanBlock = true := by
  decide!

/-- C6, evaluated where it fails.  The payload `[NaN]` holds a value that does
not lie in `[0, 1]`, yet the candidate `generateBlock` builds from it on the
genesis block is accepted by `isValidBlock` and the growth step appends it: the
chain grows from one block to two and its last block is the candidate. -/
theorem growthStep_appends_nan :
    ¬ ((0 : F64) ≤ F64.nan ∧ F64.nan ≤ 1) ∧
      generateBlock f64Ops (genesis f64Ops startTime) (tick 1) [F64.nan] = .ok nanBlock ∧
      isValidBlock f64Ops nanBlock = true ∧
      growthStep f64Ops [genesis f64Ops startTime] (tick 1) [F64.nan] =
        .ok [genesis f64Ops startTime, nanBlock] := by
  decide!

/-- C7, evaluated where it fails.  On an empty payload `generateBlock` returns
no block: `median` evaluates `data[middle-1]` with `middle = 0` and the run
panics with an index out of range. -/
theorem generateBlock_empty_payload_panics (ops : Float64Ops α) (prevBlock : Block α)
    (now : Time) :
    generateBlock ops prevBlock now [] = .error .indexOutOfRange ∧
      median ([] : List α) = .error .indexOutOfRange :=
  ⟨generateBlock_nil ops prevBlock now, median_nil⟩

/-- C8.  Two blocks with the same `Index`, `Timestamp`, `Data` and `PrevHash`
have the same `calculateHash`, whatever their `Hash`, `Mean`, `Median` and
`SDRange`. -/
theorem calculateHash_deterministic (ops : Float64Ops α) (b c : Block α)
    (hi : b.Index = c.Index) (ht : b.Timestamp = c.Timestamp) (hd : b.Data = c.Data)
    (hp : b.PrevHash = c.PrevHash) : calculateHash ops b = calculateHash ops c :=
  calculateHash_eq_of_fields ops b c hi ht hd hp

/-- C8 at two concrete blocks that differ in `Hash`, `Mean`, `Median` and
`SDRange` only. -/
theorem calculateHash_deterministic_witness :
    calculateHash ratOps staleBlock =
      calculateHash ratOps { staleBlock with Hash := "", Mean := 1, Median := 2, SDRange := 3 } :=
  calculateHash_deterministic ratOps staleBlock
    { staleBlock with Hash := "", Mean := 1, Median := 2, SDRange := 3 } rfl rfl rfl rfl

/-- C9, evaluated where it fails.  `string(block.Index)` is the one-character
text of the code point `Index`, and U+FFFD for every `int` that is not a code
point: the blocks with `Index` `-1` (the genesis sentinel), `-2`, `55296` and
`65533` and otherwise equal fields have the same record and the same digest. -/
theorem record_index_collision :
    record ratOps { genesis ratOps startTime with Index := 65533 } =
        record ratOps (genesis ratOps startTime) ∧
      record ratOps { genesis ratOps startTime with Index := 55296 } =
        record ratOps (genesis ratOps startTime) ∧
      record ratOps { genesis ratOps startTime with Index := -2 } =
        record ratOps (genesis ratOps startTime) ∧
      calculateHash ratOps { genesis ratOps startTime with Index := 65533 } =
        calculateHash ratOps (genesis ratOps startTime) := by
  refine ⟨?_, ?_, ?_, ?_⟩ <;> simp [calculateHash, record, genesis, intToString]

/-- C10.  For non-empty `data` of length `n` and `s` its ascending sort (the
sorted permutation of `data`), `median` returns `s[n/2]` when `n` is odd and
`(s[n/2 - 1] + s[n/2]) / 2` when `n` is even, and leaves the slice equal to
`s`; `median [1, 2, 3, 4] = 2.5` and `median [1, 2, 3] = 2`. -/
theorem median_spec :
    (∀ (β : Type) [LinearOrderedField β] (data s : List β), data ≠ [] →
      s.Sorted (· ≤ ·) → s.Perm data →
      ∃ v, median data = .ok (v, s) ∧
        (data.length % 2 = 1 → s[data.length / 2]? = some v) ∧
        (data.length % 2 = 0 → ∃ lo hi, s[data.length / 2 - 1]? = some lo ∧
          s[data.length / 2]? = some hi ∧ v = (lo + hi) / 2)) ∧
    median ([1, 2, 3, 4] : List ℚ) = .ok (5 / 2, [1, 2, 3, 4]) ∧
    median ([1, 2, 3] : List ℚ) = .ok (2, [1, 2, 3]) := by
  refine ⟨?_, by decide!, by decide!⟩
  intro β _ data s hne hs hp
  have hu := sortFloat64s_unique data s hs hp
  obtain ⟨v, hv⟩ := median_ok data hne
  rw [hu] at hv
  exact ⟨v, hv⟩

/-- C10 at the unsorted sequence `[4, 1, 3, 2]`, whose ascending sort is
`[1, 2, 3, 4]`. -/
theorem median_spec_witness :
    ([4, 1, 3, 2] : List ℚ) ≠ [] ∧ ([1, 2, 3, 4] : List ℚ).Sorted (· ≤ ·) ∧
      ([1, 2, 3, 4] : List ℚ).Perm [4, 1, 3, 2] ∧
      ∃ v, median ([4, 1, 3, 2] : List ℚ) = .ok (v, [1, 2, 3, 4]) ∧
        (([4, 1, 3, 2] : List ℚ).length % 2 = 1 →
          ([1, 2, 3, 4] : List ℚ)[([4, 1, 3, 2] : List ℚ).length / 2]? = some v) ∧
        (([4, 1, 3, 2] : List ℚ).length % 2 = 0 → ∃ lo hi,
          ([1, 2, 3, 4] : List ℚ)[([4, 1, 3, 2] : List ℚ).length / 2 - 1]? = some lo ∧
          ([1, 2, 3, 4] : List ℚ)[([4, 1, 3, 2] : List ℚ).length / 2]? = some hi ∧
          v = (lo + hi) / 2) :=
  ⟨by decide, by decide!, by decide!,
    median_spec.1 ℚ [4, 1, 3, 2] [1, 2, 3, 4] (by decide) (by decide!) (by decide!)⟩

/-! ## The claims on the statistics engine, the genesis block and the stored statistics -/

/-- C11.  Two non-empty sequences that are permutations of each other have the
same median: `median` returns the same value on both (and leaves both slices
in the same, sorted, state). -/
theorem median_order_invariant (data other : List α) (hne : data ≠ [])
    (hp : data.Perm other) :
    ∃ v s, median data = .ok (v, s) ∧ median other = .ok (v, s) := by
  obtain ⟨v, hm, -⟩ := median_ok data hne
  exact ⟨v, _, hm, by rw [← median_perm data other hp, hm]⟩

/-- C11 at the sequences `[3, 1, 2]` and `[2, 3, 1]`. -/
theorem median_order_invariant_witness :
    ([3, 1, 2] : List ℚ) ≠ [] ∧ ([3, 1, 2] : List ℚ).Perm [2, 3, 1] ∧
      ∃ v s, median ([3, 1, 2] : List ℚ) = .ok (v, s) ∧ median ([2, 3, 1] : List ℚ) = .ok (v, s) :=
  ⟨by decide, by decide!, median_order_invariant [3, 1, 2] [2, 3, 1] (by decide) (by decide!)⟩

/-- C12, evaluated where it fails.  `median` sorts the slice it is given:
called on `[3, 1, 2]` it returns `2` and leaves the slice as `[1, 2, 3]`, not in
the order it was passed in; on every non-empty slice it leaves the ascending
arrangement of the elements. -/
theorem median_sorts_in_place :
    median ([3, 1, 2] : List ℚ) = .ok (2, [1, 2, 3]) ∧
    ([1, 2, 3] : List ℚ) ≠ [3, 1, 2] ∧
    (∀ (β : Type) [LinearOrderedField β] (data : List β), data ≠ [] →
      ∃ v s, median data = .ok (v, s) ∧ s.Sorted (· ≤ ·) ∧ s.Perm data) := by
  refine ⟨by decide!, by decide, ?_⟩
  intro β _ data hne
  obtain ⟨v, hm, -⟩ := median_ok data hne
  exact ⟨v, _, hm, sorted_sortFloat64s data, perm_sortFloat64s data⟩

/-- C13.  For a non-empty sequence of length `n`, at most `⌈n/2⌉` of its
elements are strictly less than the value `median` returns. -/
theorem median_count_below (data : List α) (hne : data ≠ []) :
    ∃ v s, median data = .ok (v, s) ∧
      data.countP (fun y => decide (y < v)) ≤ (data.length + 1) / 2 :=
  median_countP_le data hne

/-- C13 at the sequence `[4, 1, 3, 2]`: the median is `2.5` and two elements lie
below it. -/
theorem median_count_below_witness :
    ([4, 1, 3, 2] : List ℚ) ≠ [] ∧
      ∃ v s, median ([4, 1, 3, 2] : List ℚ) = .ok (v, s) ∧
        ([4, 1, 3, 2] : List ℚ).countP (fun y => decide (y < v)) ≤
          (([4, 1, 3, 2] : List ℚ).length + 1) / 2 :=
  ⟨by decide, median_count_below [4, 1, 3, 2] (by decide)⟩

/-- C14.  With an exact square root, `sdRange` of a non-empty sequence whose
elements are all multiplied by `k > 0` is `k` times `sdRange` of the sequence. -/
theorem sdRange_scales (ops : Float64Ops α) (hs : ExactSqrt ops) (k : α) (hk : 0 < k)
    (data : List α) (_hne : data ≠ []) :
    sdRange ops (data.map fun v => k * v) = k * sdRange ops data :=
  sdRange_scale ops hs k (le_of_lt hk) data

/-- C14 over the reals, at the sequence `[1, 2]` and the factor `3`. -/
theorem sdRange_scales_witness :
    ExactSqrt (opsWith Real.sqrt) ∧ (0 : ℝ) < 3 ∧ ([1, 2] : List ℝ) ≠ [] ∧
      sdRange (opsWith Real.sqrt) (([1, 2] : List ℝ).map fun v => 3 * v) =
        3 * sdRange (opsWith Real.sqrt) ([1, 2] : List ℝ) :=
  ⟨exactSqrt_real, by norm_num, by simp,
    sdRange_scales (opsWith Real.sqrt) exactSqrt_real 3 (by norm_num) [1, 2] (by simp)⟩

/-- C15.  With an exact square root, `sdRange` of every sequence with at least
one element is non-negative, and `sdRange [0, 0, 0, 0] = 0`. -/
theorem sdRange_nonneg_zero (ops : Float64Ops α) (hs : ExactSqrt ops) :
    (∀ data : List α, data ≠ [] → 0 ≤ sdRange ops data) ∧ sdRange ops [0, 0, 0, 0] = 0 := by
  refine ⟨fun data _ => sdRange_nonneg ops hs data, ?_⟩
  rw [sdRange_eq]
  simp [mean, exactSqrt_zero ops hs]

/-- C15 over the reals. -/
theorem sdRange_nonneg_zero_witness :
    ExactSqrt (opsWith Real.sqrt) ∧
      (∀ data : List ℝ, data ≠ [] → 0 ≤ sdRange (opsWith Real.sqrt) data) ∧
      sdRange (opsWith Real.sqrt) ([0, 0, 0, 0] : List ℝ) = 0 :=
  ⟨exactSqrt_real, sdRange_nonneg_zero (opsWith Real.sqrt) exactSqrt_real⟩

/-- C16.  For a non-empty sequence `mean` is the sum of the elements divided by
their number; over the rationals `mean [0.2, 0.4, 0.6] = 0.4`. -/
theorem mean_spec :
    (∀ (β : Type) [LinearOrderedField β] (data : List β), data ≠ [] →
      mean data = data.sum / (data.length : β)) ∧
    mean ([1 / 5, 2 / 5, 3 / 5] : List ℚ) = 2 / 5 := by
  refine ⟨fun β _ data _ => mean_eq_sum_div data, by decide!⟩

/-- C16 at the sequence `[0.2, 0.4, 0.6]`. -/
theorem mean_spec_witness :
    ([1 / 5, 2 / 5, 3 / 5] : List ℚ) ≠ [] ∧
      mean ([1 / 5, 2 / 5, 3 / 5] : List ℚ) =
        ([1 / 5, 2 / 5, 3 / 5] : List ℚ).sum / (([1 / 5, 2 / 5, 3 / 5] : List ℚ).length : ℚ) :=
  ⟨by simp, mean_spec.1 ℚ [1 / 5, 2 / 5, 3 / 5] (by simp)⟩

/-- C17.  The genesis block has `Index` `-1`, empty `Data`, empty `PrevHash`,
zero `Mean`, `Median` and `SDRange`, and a non-empty `Hash` equal to
`calculateHash` of the block itself; it is the first block of every chain grown
from it, a growth iteration leaves the first block of a chain in place, and it
is the first block of the chain `main` returns. -/
theorem genesis_first (ops : Float64Ops α) (start : Time) :
    ((genesis ops start).Index = -1 ∧ (genesis ops start).Data = [] ∧
      (genesis ops start).PrevHash = "" ∧ (genesis ops start).Mean = 0 ∧
      (genesis ops start).Median = 0 ∧ (genesis ops start).SDRange = 0 ∧
      (genesis ops start).Hash ≠ "" ∧
      (genesis ops start).Hash = calculateHash ops (genesis ops start)) ∧
    (∀ (inputs : List (Time × List α)) (chain : Blockchain α),
      growthLoop ops [genesis ops start] inputs = .ok chain →
      chain.head? = some (genesis ops start)) ∧
    (∀ (g : Block α) (rest next : Blockchain α) (now : Time) (data : List α),
      growthStep ops (g :: rest) now data = .ok next → next.head? = some g) ∧
    (∀ (clock : Nat → Time) (rand : Nat → Nat → α),
      ∃ chain, main ops start clock rand = .ok chain ∧
        chain.head? = some (genesis ops start)) := by
  have hhead : ∀ (inputs : List (Time × List α)) (chain : Blockchain α),
      growthLoop ops [genesis ops start] inputs = .ok chain →
      chain.head? = some (genesis ops start) := by
    intro inputs chain h
    obtain ⟨more, hm⟩ := growthLoop_head ops inputs (genesis ops start) [] chain h
    rw [hm]; rfl
  refine ⟨⟨rfl, rfl, rfl, rfl, rfl, rfl, hexDigest_ne_empty _, calculateHash_genesis ops start⟩,
    hhead, fun g rest next now data h => growthStep_head ops g rest next now data h, ?_⟩
  intro clock rand
  obtain ⟨chain, hc⟩ := growthLoop_ok ops _ (main_payloads_ne_nil clock rand)
    [genesis ops start] (by simp)
  exact ⟨chain, hc, hhead _ chain hc⟩

/-- C17 at a concrete run: after three iterations, one candidate dropped, the
first block of the chain is the genesis block. -/
theorem genesis_first_witness :
    growthLoop ratOps [genesis ratOps startTime] scenarioInputs = .ok scenarioChain ∧
      scenarioChain.head? = some (genesis ratOps startTime) :=
  ⟨scenario_run, (genesis_first ratOps startTime).2.1 scenarioInputs scenarioChain scenario_run⟩

/-- C18.  For a non-empty payload the block `generateBlock` returns stores
`Mean = mean payload`, `Median` the value `median payload` returns, and
`SDRange = sdRange payload`, all over the payload as passed in: `sdRange` is
computed on the slice after `median` has sorted it, and `mean` and `sdRange` of
the sorted slice equal those of the payload. -/
theorem generateBlock_statistics (ops : Float64Ops α) (prevBlock : Block α) (now : Time)
    (data : List α) (hne : data ≠ []) :
    ∃ b m s, generateBlock ops prevBlock now data = .ok b ∧ median data = .ok (m, s) ∧
      b.Mean = mean data ∧ b.Median = m ∧ b.SDRange = sdRange ops data ∧
      mean s = mean data ∧ sdRange ops s = sdRange ops data := by
  obtain ⟨b, m, hg, hm, -, hmean, hmed, hsd⟩ := generateBlock_stats ops prevBlock now data hne
  have hp := perm_sortFloat64s data
  exact ⟨b, m, _, hg, hm, hmean, hmed, by rw [hsd, sdRange_perm ops _ data hp],
    mean_perm _ data hp, sdRange_perm ops _ data hp⟩

/-- C18 at the payload `[0.5, 0.25]` offered on the genesis block. -/
theorem generateBlock_statistics_witness :
    ([1 / 2, 1 / 4] : List ℚ) ≠ [] ∧
      ∃ b m s, generateBlock ratOps (genesis ratOps startTime) (tick 0) [1 / 2, 1 / 4] = .ok b ∧
        median ([1 / 2, 1 / 4] : List ℚ) = .ok (m, s) ∧
        b.Mean = mean ([1 / 2, 1 / 4] : List ℚ) ∧ b.Median = m ∧
        b.SDRange = sdRange ratOps [1 / 2, 1 / 4] ∧
        mean s = mean ([1 / 2, 1 / 4] : List ℚ) ∧
        sdRange ratOps s = sdRange ratOps [1 / 2, 1 / 4] :=
  ⟨by simp, generateBlock_statistics ratOps (genesis ratOps startTime) (tick 0) [1 / 2, 1 / 4]
    (by simp)⟩

/-- C19.  For a non-empty payload the `Data` of the block `generateBlock`
returns is the payload in ascending order, a sorted permutation of it, while
the stored `Hash` is the digest of the block with `Data` in the order the
payload was passed in. -/
theorem generateBlock_data_sorted (ops : Float64Ops α) (prevBlock : Block α) (now : Time)
    (data : List α) (hne : data ≠ []) :
    ∃ b, generateBlock ops prevBlock now data = .ok b ∧ b.Data.Sorted (· ≤ ·) ∧
      b.Data.Perm data ∧ b.Hash = calculateHash ops { b with Data := data } := by
  obtain ⟨b, m, hg, -, hd, -⟩ := generateBlock_stats ops prevBlock now data hne
  refine ⟨b, hg, ?_, ?_, generateBlock_hash_eq ops prevBlock now data b hg⟩
  · rw [hd]; exact sorted_sortFloat64s data
  · rw [hd]; exact perm_sortFloat64s data

/-- C19 at the payload `[0.5, 0.25]` offered on the genesis block. -/
theorem generateBlock_data_sorted_witness :
    ([1 / 2, 1 / 4] : List ℚ) ≠ [] ∧
      ∃ b, generateBlock ratOps (genesis ratOps startTime) (tick 0) [1 / 2, 1 / 4] = .ok b ∧
        b.Data.Sorted (· ≤ ·) ∧ b.Data.Perm [1 / 2, 1 / 4] ∧
        b.Hash = calculateHash ratOps { b with Data := [1 / 2, 1 / 4] } :=
  ⟨by simp, generateBlock_data_sorted ratOps (genesis ratOps startTime) (tick 0) [1 / 2, 1 / 4]
    (by simp)⟩

/-- C20.  With an exact square root, for a non-empty sequence with all elements
in `[0, 1]`: whenever `lo` and `hi` bound the elements from below and above, as
the minimum and the maximum element do, `mean` and the value of `median` lie
between `lo` and `hi` and `sdRange` is at most `hi - lo`; so `mean` and the
median lie in `[0, 1]` and `sdRange` is at most `1`. -/
theorem statistics_in_range (ops : Float64Ops α) (hs : ExactSqrt ops) (data : List α)
    (hne : data ≠ []) (h01 : ∀ v ∈ data, 0 ≤ v ∧ v ≤ 1) :
    (∀ lo hi : α, (∀ v ∈ data, lo ≤ v ∧ v ≤ hi) →
      lo ≤ mean data ∧ mean data ≤ hi ∧
      (∃ m s, median data = .ok (m, s) ∧ lo ≤ m ∧ m ≤ hi) ∧
      sdRange ops data ≤ hi - lo) ∧
    (0 ≤ mean data ∧ mean data ≤ 1 ∧
      (∃ m s, median data = .ok (m, s) ∧ 0 ≤ m ∧ m ≤ 1) ∧
      sdRange ops data ≤ 1) := by
  have hgen : ∀ lo hi : α, (∀ v ∈ data, lo ≤ v ∧ v ≤ hi) →
      lo ≤ mean data ∧ mean data ≤ hi ∧
      (∃ m s, median data = .ok (m, s) ∧ lo ≤ m ∧ m ≤ hi) ∧
      sdRange ops data ≤ hi - lo := by
    intro lo hi h
    obtain ⟨h1, h2⟩ := mean_bounds data hne lo hi h
    exact ⟨h1, h2, median_bounds data hne lo hi h, sdRange_le ops hs data hne lo hi h⟩
  refine ⟨hgen, ?_⟩
  obtain ⟨h1, h2, h3, h4⟩ := hgen 0 1 h01
  exact ⟨h1, h2, h3, by simpa using h4⟩

/-- C20 over the reals, at the sequence `[0.25, 0.75]`. -/
theorem statistics_in_range_witness :
    ExactSqrt (opsWith Real.sqrt) ∧ ([1 / 4, 3 / 4] : List ℝ) ≠ [] ∧
      (∀ v ∈ ([1 / 4, 3 / 4] : List ℝ), 0 ≤ v ∧ v ≤ 1) ∧
      (0 ≤ mean ([1 / 4, 3 / 4] : List ℝ) ∧ mean ([1 / 4, 3 / 4] : List ℝ) ≤ 1 ∧
        (∃ m s, median ([1 / 4, 3 / 4] : List ℝ) = .ok (m, s) ∧ 0 ≤ m ∧ m ≤ 1) ∧
        sdRange (opsWith Real.sqrt) ([1 / 4, 3 / 4] : List ℝ) ≤ 1) :=
  ⟨exactSqrt_real, by simp,
    fun v hv => by
      simp only [List.mem_cons, List.mem_singleton, List.not_mem_nil, or_false] at hv
      rcases hv with rfl | rfl <;> norm_num,
    (statistics_in_range (opsWith Real.sqrt) exactSqrt_real [1 / 4, 3 / 4] (by simp)
      (fun v hv => by
        simp only [List.mem_cons, List.mem_singleton, List.not_mem_nil, or_false] at hv
        rcases hv with rfl | rfl <;> norm_num)).2⟩


end Go7
